import Mathlib

/-!
Verification of the true-ledger-core-genesis repository.

The repository has two Rust programs sharing one data model:

* segment 1 (producer) generates an Ed25519 identity, derives a
  did-key identifier from the public key, builds a sample double-entry
  transaction, hashes its canonical JSON serialization with SHA-256,
  signs the digest and stores the signature as hex; and
* segment 2 (verifier) recovers the public key from the identifier,
  re-derives the digest, checks the signature, and checks that total
  debits equal total credits.

This file gives a shallow embedding of both programs.  Bytes are
natural numbers below 256, strings are Lean strings (lists of
characters; all protocol-relevant text is ASCII), machine integers are
naturals, and monetary amounts are exact rationals.  Two deliberate
modelling notes, stated once here and referenced below:

* Rust parses amounts with f64 parsing and accumulates them as f64.
  The balance check is embedded twice: a bit-accurate IEEE 754
  binary64 model (the F64 section: correctly rounded parsing and
  addition, non-finite values, the exact double written 0.0001),
  against which the claims quantifying over all amounts are settled,
  and an exact-decimal surrogate kept for the claims whose concrete
  inputs are decided identically by f64 and exact arithmetic, far
  from any rounding boundary.
* The ed25519-dalek signing and verifying primitives are kept
  abstract: theorems about the signature pipeline take the signing and
  verifying functions as parameters together with the guarantees the
  library documents (verify of a signed message succeeds, signatures
  are 64 bytes with the top three bits of the final byte clear).
-/

namespace TrueLedger

/-- One accounting line, mirroring struct JournalEntry of both
segments: an opaque account code and the debit and credit amounts kept
as strings. -/
structure JournalEntry where
  account_id : String
  debit : String
  credit : String
deriving DecidableEq

/-- The transaction payload, mirroring struct Transaction of both
segments, in declared field order: timestamp, author_did, entries,
memo. -/
structure Transaction where
  timestamp : ℕ
  author_did : String
  entries : List JournalEntry
  memo : String
deriving DecidableEq

/-- The persisted bundle, mirroring struct SignedTransaction: the
payload by value plus the hex-encoded signature. -/
structure SignedTransaction where
  payload : Transaction
  signature : String
deriving DecidableEq

/-- Exact decimal number: the rational value num / 10 ^ scale.  Kept
as a scaled integer so that every arithmetic step of the balance check
is computable by the kernel (see the modelling notes in the file
header); the rational value is recovered by Amount.toRat. -/
structure Amount where
  num : ℤ
  scale : ℕ
deriving DecidableEq

/-- Rational value of an exact decimal number. -/
def Amount.toRat (a : Amount) : ℚ := (a.num : ℚ) / (10 : ℚ) ^ a.scale

/-- Exact sum of two decimal numbers, over the product of the two
power-of-ten denominators. -/
def Amount.add (a b : Amount) : Amount :=
  ⟨a.num * (10 : ℤ) ^ b.scale + b.num * (10 : ℤ) ^ a.scale, a.scale + b.scale⟩

/-- Exact difference of two decimal numbers. -/
def Amount.sub (a b : Amount) : Amount :=
  ⟨a.num * (10 : ℤ) ^ b.scale - b.num * (10 : ℤ) ^ a.scale, a.scale + b.scale⟩

/-- Decide whether the absolute value of a decimal number is below
1 / 10000, by cross-multiplication: the absolute numerator times 10^4
must be below the denominator. -/
def Amount.absLtTol (a : Amount) : Bool :=
  a.num.natAbs * 10000 < 10 ^ a.scale

/-- The verifier's failure taxonomy.  The Rust source returns strings;
each constructor corresponds to exactly one Err message of
segment 2, in source order:

* notEd25519DidKey: the message that the did is not an Ed25519 did-key;
* multibaseDecodeFailed: the multibase decode error message;
* invalidPublicKeyBytes: the invalid-public-key-bytes message;
* invalidMulticodecTag: the invalid-multicodec-tag message;
* invalidHexSignature: the invalid-hex-signature message;
* invalidSignatureBytes: the invalid-signature-format message;
* signatureVerifyFailed: the tampering-detected message;
* invalidDebitAmount / invalidCreditAmount: the two amount-format
  messages of verify_balance;
* imbalance: the financial-imbalance message; the Rust message
  interpolates the two f64 totals, modelled here by carrying the two
  exact decimal totals. -/
inductive VerifyError where
  | notEd25519DidKey
  | multibaseDecodeFailed
  | invalidPublicKeyBytes
  | invalidMulticodecTag
  | invalidHexSignature
  | invalidSignatureBytes
  | signatureVerifyFailed
  | invalidDebitAmount
  | invalidCreditAmount
  | imbalance (totalDebits totalCredits : Amount)
deriving DecidableEq

/-! ## Decimal amount parsing

Model of Rust's f64 parsing as used by verify_balance, restricted to
finite values: an optional sign, a mantissa holding at least one digit
with an optional decimal point, and an optional exponent part.  See
the modelling notes in the file header.  A parsed amount is kept as an
exact scaled integer (a numerator over a power-of-ten denominator) so
that every arithmetic step of the balance check is computable by the
kernel; the rational value of an amount is recovered by Amount.toRat
and used in the specification-level statements. -/

/-- Numeric value of a decimal digit character. -/
def digitVal (c : Char) : ℕ := c.toNat - '0'.toNat

/-- Split a character list into its longest prefix of decimal digits
(as digit values) and the remainder. -/
def takeDigits : List Char → List ℕ × List Char
  | [] => ([], [])
  | c :: rest =>
    if c.isDigit then
      let p := takeDigits rest
      (digitVal c :: p.1, p.2)
    else ([], c :: rest)

/-- Value of a big-endian list of base-10 digits. -/
def natOfDigits (ds : List ℕ) : ℕ :=
  ds.foldl (fun a d => 10 * a + d) 0

/-- Consume an optional leading sign, returning the sign as plus or
minus one. -/
def parseSign : List Char → ℤ × List Char
  | '+' :: r => (1, r)
  | '-' :: r => (-1, r)
  | s => (1, s)

/-- Exact-decimal surrogate of str::parse::<f64> on finite decimal
literals: optional sign, then digits with an optional point (at least
one digit overall), then an optional exponent introduced by e or E
with an optional sign and at least one digit; the whole input must be
consumed.  Returns the exact decimal value: the mantissa digits form
the numerator, the number of fraction digits (plus a negative
exponent, if any) forms the scale, and a positive exponent multiplies
the numerator.  The bit-accurate refinement, which also accepts the
non-finite literals and rounds to binary64, is parseF64IEEE below;
this surrogate and the f64 semantics agree on the acceptance and
value of every concrete literal used in the claims settled against
it. -/
def parseF64 (s : List Char) : Option Amount :=
  let sp := parseSign s
  let ipp := takeDigits sp.2
  let fpp :=
    match ipp.2 with
    | '.' :: r => takeDigits r
    | _ => ([], ipp.2)
  if ipp.1 = [] ∧ fpp.1 = [] then none
  else
    let mnum : ℤ := sp.1 * (natOfDigits (ipp.1 ++ fpp.1) : ℤ)
    let mscale : ℕ := fpp.1.length
    match fpp.2 with
    | [] => some ⟨mnum, mscale⟩
    | c :: r3 =>
      if c = 'e' ∨ c = 'E' then
        let esp := parseSign r3
        let edp := takeDigits esp.2
        if edp.1 = [] ∨ edp.2 ≠ [] then none
        else if esp.1 = 1 then some ⟨mnum * (10 : ℤ) ^ natOfDigits edp.1, mscale⟩
        else some ⟨mnum, mscale + natOfDigits edp.1⟩
      else none

/-! ## Balance check (segment 2, verify_balance) -/

/-- The entry loop of verify_balance: walk the entries accumulating
total debits and total credits, stopping at the first amount that
fails to parse, the debit of an entry being parsed before its
credit. -/
def balanceTotals : List JournalEntry → Amount → Amount → Except VerifyError (Amount × Amount)
  | [], d, c => .ok (d, c)
  | e :: rest, d, c =>
    match parseF64 e.debit.data with
    | none => .error .invalidDebitAmount
    | some dv =>
      match parseF64 e.credit.data with
      | none => .error .invalidCreditAmount
      | some cv => balanceTotals rest (d.add dv) (c.add cv)

/-- Exact-decimal surrogate of verify_balance: accumulate the two
totals starting from zero and accept exactly when the absolute
difference of the totals is below the tolerance 0.0001 that the
source compares against.  The bit-accurate f64 refinement is
verify_balance_f64 below; this surrogate is used only by claims whose
verdicts provably coincide with f64 (concrete inputs far from any
rounding boundary, the empty list, and the structural pipeline
claim). -/
def verify_balance (tx : Transaction) : Except VerifyError Unit :=
  match balanceTotals tx.entries ⟨0, 0⟩ ⟨0, 0⟩ with
  | .error e => .error e
  | .ok t => if (t.1.sub t.2).absLtTol then .ok () else .error (.imbalance t.1 t.2)

/-- Rational sum of the parsed debit amounts of a list of entries,
unparsable amounts contributing zero; agrees with the accumulated
total whenever every amount parses. -/
def debitSum (l : List JournalEntry) : ℚ :=
  (l.map (fun e => ((parseF64 e.debit.data).getD ⟨0, 0⟩).toRat)).sum

/-- Rational sum of the parsed credit amounts of a list of entries,
unparsable amounts contributing zero. -/
def creditSum (l : List JournalEntry) : ℚ :=
  (l.map (fun e => ((parseF64 e.credit.data).getD ⟨0, 0⟩).toRat)).sum

/-- Rational sum of the parsed debit amounts of a transaction. -/
def totalDebits (tx : Transaction) : ℚ := debitSum tx.entries

/-- Rational sum of the parsed credit amounts of a transaction. -/
def totalCredits (tx : Transaction) : ℚ := creditSum tx.entries

example : parseF64 "10000.00".data = some ⟨1000000, 2⟩ := rfl
example : parseF64 "abc".data = none := rfl
example : parseF64 "-5.00".data = some ⟨-500, 2⟩ := rfl
example : parseF64 "0.00005".data = some ⟨5, 5⟩ := rfl
example : parseF64 "1.e5".data = some ⟨100000, 0⟩ := rfl
example : parseF64 "1e-2".data = some ⟨1, 2⟩ := rfl
example : parseF64 ".".data = none := rfl
example : parseF64 "".data = none := rfl

/-! ## Arithmetic bridge from exact decimals to rationals -/

theorem Amount.toRat_add (a b : Amount) : (a.add b).toRat = a.toRat + b.toRat := by
  have h : (10 : ℚ) ^ a.scale ≠ 0 := pow_ne_zero _ (by norm_num)
  have h' : (10 : ℚ) ^ b.scale ≠ 0 := pow_ne_zero _ (by norm_num)
  simp only [Amount.add, Amount.toRat, pow_add]
  push_cast
  field_simp

theorem Amount.toRat_sub (a b : Amount) : (a.sub b).toRat = a.toRat - b.toRat := by
  have h : (10 : ℚ) ^ a.scale ≠ 0 := pow_ne_zero _ (by norm_num)
  have h' : (10 : ℚ) ^ b.scale ≠ 0 := pow_ne_zero _ (by norm_num)
  simp only [Amount.sub, Amount.toRat, pow_add]
  push_cast
  field_simp
  ring

theorem Amount.absLtTol_iff (a : Amount) :
    a.absLtTol = true ↔ |a.toRat| < 1 / 10000 := by
  have hp : (0 : ℚ) < 10 ^ a.scale := by positivity
  simp only [Amount.absLtTol, Amount.toRat, decide_eq_true_eq]
  rw [abs_div, abs_pow, abs_of_nonneg (by norm_num : (0 : ℚ) ≤ 10),
    div_lt_div_iff₀ hp (by norm_num : (0 : ℚ) < 10000), one_mul,
    ← Int.cast_abs, Int.abs_eq_natAbs]
  constructor
  · intro hlt
    exact_mod_cast hlt
  · intro hlt
    exact_mod_cast hlt

/-! ## Behaviour of the balance-total loop -/

/-- When every amount of every entry parses, the loop returns the two
accumulated totals and their rational values are the starting values
plus the respective column sums. -/
theorem balanceTotals_ok (l : List JournalEntry) (d c : Amount)
    (h : ∀ e ∈ l, (parseF64 e.debit.data).isSome ∧ (parseF64 e.credit.data).isSome) :
    ∃ D C, balanceTotals l d c = .ok (D, C)
      ∧ D.toRat = d.toRat + debitSum l ∧ C.toRat = c.toRat + creditSum l := by
  induction l generalizing d c with
  | nil => exact ⟨d, c, rfl, by simp [debitSum], by simp [creditSum]⟩
  | cons e rest ih =>
    obtain ⟨hd, hc⟩ := h e (by simp)
    obtain ⟨dv, hdv⟩ := Option.isSome_iff_exists.mp hd
    obtain ⟨cv, hcv⟩ := Option.isSome_iff_exists.mp hc
    obtain ⟨D, C, hbal, hD, hC⟩ :=
      ih (d.add dv) (c.add cv) (fun e' he' => h e' (List.mem_cons_of_mem _ he'))
    refine ⟨D, C, ?_, ?_, ?_⟩
    · simp [balanceTotals, hdv, hcv, hbal]
    · rw [hD, Amount.toRat_add]
      simp only [debitSum, List.map_cons, List.sum_cons, hdv, Option.getD_some]
      rw [debitSum] at *
      ring
    · rw [hC, Amount.toRat_add]
      simp only [creditSum, List.map_cons, List.sum_cons, hcv, Option.getD_some]
      rw [creditSum] at *
      ring

/-- When some entry holds an unparsable amount, the loop stops with
one of the two amount-format errors. -/
theorem balanceTotals_error (l : List JournalEntry) (d c : Amount)
    (h : ∃ e ∈ l, parseF64 e.debit.data = none ∨ parseF64 e.credit.data = none) :
    balanceTotals l d c = .error .invalidDebitAmount
    ∨ balanceTotals l d c = .error .invalidCreditAmount := by
  induction l generalizing d c with
  | nil => simp at h
  | cons e rest ih =>
    rcases hpd : parseF64 e.debit.data with _ | dv
    · left
      simp [balanceTotals, hpd]
    · rcases hpc : parseF64 e.credit.data with _ | cv
      · right
        simp [balanceTotals, hpd, hpc]
      · have hrest : ∃ e' ∈ rest, parseF64 e'.debit.data = none ∨ parseF64 e'.credit.data = none := by
          obtain ⟨e', he', hfail⟩ := h
          rcases List.mem_cons.mp he' with rfl | hmem
          · rcases hfail with hf | hf
            · rw [hpd] at hf
              exact absurd hf (by simp)
            · rw [hpc] at hf
              exact absurd hf (by simp)
          · exact ⟨e', hmem, hfail⟩
        simpa [balanceTotals, hpd, hpc] using ih (d.add dv) (c.add cv) hrest

set_option exponentiation.threshold 4096

set_option maxRecDepth 8000

/-! ## IEEE 754 binary64 model

Bit-accurate model of the f64 arithmetic that verify_balance actually
performs, used by claims C4 and C5.  A finite double is represented by
its exact value counted in units of 2^(-1074) (the smallest positive
subnormal), a signed integer; every operation rounds its exact result
to the nearest representable value with ties to even, exactly as IEEE
754 prescribes and as cross-checked against hardware doubles on random
and boundary inputs.  The exact-decimal functions above remain in use
by the claims whose verdicts provably coincide with f64 on their
domains. -/

/-- Number of binary digits of a number below 2^64, one halving step
per bit (call with fuel 64). -/
def bitlenAux : ℕ → ℕ → ℕ
  | 0, _ => 0
  | fuel + 1, n => if n = 0 then 0 else bitlenAux fuel (n / 2) + 1

/-- Number of binary digits of a natural number, with fuel for
structural recursion (instantiate the fuel with the number itself);
chunked into 64-bit steps so that evaluation stays shallow on
thousand-bit inputs. -/
def bitlen : ℕ → ℕ → ℕ
  | 0, _ => 0
  | fuel + 1, n =>
    if n < 2 ^ 64 then bitlenAux 64 n
    else bitlen fuel (n / 2 ^ 64) + 64

/-- Round the positive real number t / d, measured in units of
2^(-1074), to the nearest representable binary64 magnitude (ties to
even), returned as a count of units; none models overflow to
infinity.  The granularity is one unit below 2^53 units and doubles
with each binade above; the significand is renormalized when rounding
carries into the next binade, and magnitudes reaching 2^1024 overflow. -/
def roundUnitsToV (t d : ℕ) : Option ℕ :=
  let f := t / d
  let j := bitlen f f - 53
  let g := d * 2 ^ j
  let q := t / g
  let r := t % g
  let q' := if g < 2 * r then q + 1 else if 2 * r < g then q else if q % 2 = 0 then q else q + 1
  let p := if q' = 2 ^ 53 then (2 ^ 52, j + 1) else (q', j)
  if 2046 ≤ p.2 then none else some (p.1 * 2 ^ p.2)

/-- An IEEE 754 binary64 value: a finite double carries its exact
value in units of 2^(-1074).  The two zeroes are collapsed into one;
this is unobservable in this pipeline, because a left fold starting
from +0.0 never produces -0.0 and x + (-0.0) equals x + 0.0 for every
x.  A single NaN stands for all NaN payloads, which f64 operations
never distinguish. -/
inductive F64 where
  | finite (units : ℤ)
  | inf (neg : Bool)
  | nan
deriving DecidableEq

/-- Round an exact signed count of units to a double. -/
def roundIntToF64 (w : ℤ) : F64 :=
  match roundUnitsToV w.natAbs 1 with
  | none => .inf (w < 0)
  | some v => .finite (if w < 0 then -(v : ℤ) else (v : ℤ))

/-- The correctly rounded double of the decimal value
sign * m10 * 10 ^ e10. -/
def f64OfDecimal (sign : ℤ) (m10 : ℕ) (e10 : ℤ) : F64 :=
  let p := if 0 ≤ e10 then (m10 * 10 ^ e10.toNat, 1) else (m10, 10 ^ (-e10).toNat)
  match roundUnitsToV (p.1 * 2 ^ 1074) p.2 with
  | none => .inf (sign < 0)
  | some v => .finite (if sign < 0 then -(v : ℤ) else (v : ℤ))

/-- f64 negation. -/
def F64.neg : F64 → F64
  | .finite v => .finite (-v)
  | .inf b => .inf (!b)
  | .nan => .nan

/-- f64 addition: NaN propagates, opposite infinities give NaN, and
the exact sum of two finite values is rounded to nearest, ties to
even. -/
def F64.add : F64 → F64 → F64
  | .nan, _ => .nan
  | _, .nan => .nan
  | .inf b1, .inf b2 => if b1 = b2 then .inf b1 else .nan
  | .inf b, .finite _ => .inf b
  | .finite _, .inf b => .inf b
  | .finite v1, .finite v2 => roundIntToF64 (v1 + v2)

/-- f64 subtraction. -/
def F64.sub (x y : F64) : F64 := x.add y.neg

/-- f64 absolute value. -/
def F64.abs : F64 → F64
  | .finite v => .finite |v|
  | .inf _ => .inf false
  | .nan => .nan

/-- f64 strict comparison; false whenever either side is NaN, as in
Rust. -/
def F64.lt : F64 → F64 → Bool
  | .nan, _ => false
  | _, .nan => false
  | .finite a, .finite b => a < b
  | .inf b1, .inf b2 => b1 && !b2
  | .inf b1, .finite _ => b1
  | .finite _, .inf b2 => !b2

/-- The double written 0.0001 in the source: the nearest binary64 to
1/10000 (which is not exactly representable). -/
def f64Tol : F64 :=
  match roundUnitsToV (2 ^ 1074) (10 ^ 4) with
  | none => .nan
  | some v => .finite (v : ℤ)

/-- Full model of str::parse::<f64>: after an optional sign, the
case-insensitive literals inf, infinity and nan parse to the signed
infinities and NaN; otherwise the decimal grammar (digits with an
optional point, at least one digit, optional exponent, whole input
consumed) parses to the correctly rounded double, overflowing to
infinity.  This refines the exact-decimal parseF64 above to bit
accuracy. -/
def parseF64IEEE (s : List Char) : Option F64 :=
  let sp := parseSign s
  let low := sp.2.map Char.toLower
  if low = "inf".data ∨ low = "infinity".data then some (.inf (sp.1 < 0))
  else if low = "nan".data then some .nan
  else
    let ipp := takeDigits sp.2
    let fpp :=
      match ipp.2 with
      | '.' :: r => takeDigits r
      | _ => ([], ipp.2)
    if ipp.1 = [] ∧ fpp.1 = [] then none
    else
      let m10 := natOfDigits (ipp.1 ++ fpp.1)
      let sc := fpp.1.length
      match fpp.2 with
      | [] => some (f64OfDecimal sp.1 m10 (-(sc : ℤ)))
      | c :: r3 =>
        if c = 'e' ∨ c = 'E' then
          let esp := parseSign r3
          let edp := takeDigits esp.2
          if edp.1 = [] ∨ edp.2 ≠ [] then none
          else some (f64OfDecimal sp.1 m10 (esp.1 * (natOfDigits edp.1 : ℤ) - (sc : ℤ)))
        else none

/-- The amount-format and imbalance errors of the bit-accurate balance
model; imbalance carries the two f64 totals that the source
interpolates into its error message. -/
inductive BalanceErrorF64 where
  | invalidDebitAmount
  | invalidCreditAmount
  | imbalance (totalDebits totalCredits : F64)
deriving DecidableEq

/-- The entry loop of verify_balance over bit-accurate f64 arithmetic:
accumulate both totals left to right, stopping at the first amount
that fails to parse, the debit of an entry before its credit. -/
def balanceTotalsF64 : List JournalEntry → F64 → F64 → Except BalanceErrorF64 (F64 × F64)
  | [], d, c => .ok (d, c)
  | e :: rest, d, c =>
    match parseF64IEEE e.debit.data with
    | none => .error .invalidDebitAmount
    | some dv =>
      match parseF64IEEE e.credit.data with
      | none => .error .invalidCreditAmount
      | some cv => balanceTotalsF64 rest (d.add dv) (c.add cv)

/-- Bit-accurate model of verify_balance: f64 parsing and
accumulation from 0.0, then the f64 comparison of
|total_debits - total_credits| against the double 0.0001 (false when
the difference is NaN, as in Rust). -/
def verify_balance_f64 (tx : Transaction) : Except BalanceErrorF64 Unit :=
  match balanceTotalsF64 tx.entries (.finite 0) (.finite 0) with
  | .error e => .error e
  | .ok t => if (t.1.sub t.2).abs.lt f64Tol then .ok () else .error (.imbalance t.1 t.2)

/-- The f64 total of the debit column: the same left fold the source
computes (f64 addition is not associative, so the order is part of the
meaning), unparsable amounts contributing zero. -/
def totalDebitsF64 (tx : Transaction) : F64 :=
  tx.entries.foldl (fun acc e => acc.add ((parseF64IEEE e.debit.data).getD (.finite 0))) (.finite 0)

/-- The f64 total of the credit column. -/
def totalCreditsF64 (tx : Transaction) : F64 :=
  tx.entries.foldl (fun acc e => acc.add ((parseF64IEEE e.credit.data).getD (.finite 0))) (.finite 0)

example : parseF64IEEE "10000.00".data = some (.finite ((10000 * 2 ^ 1074 : ℕ) : ℤ)) := rfl
example : parseF64IEEE "0.1".data = some (.finite ((7205759403792794 * 2 ^ 1018 : ℕ) : ℤ)) := rfl
example : parseF64IEEE "-5.00".data = some (.finite (-((5 * 2 ^ 1074 : ℕ) : ℤ))) := rfl
example : parseF64IEEE "inf".data = some (.inf false) := rfl
example : parseF64IEEE "-InFiNiTy".data = some (.inf true) := rfl
example : parseF64IEEE "NaN".data = some .nan := rfl
example : parseF64IEEE "abc".data = none := rfl
example : parseF64IEEE "1e309".data = some (.inf false) := rfl
example : parseF64IEEE "5e-324".data = some (.finite 1) := rfl

/-- Rounding regime check: 1e20 + 1 rounds back to 1e20 in f64, so
debits 1e20 and 1 against credits 1e20 balance exactly as the program
decides, where exact arithmetic would not. -/
example : verify_balance_f64 ⟨0, "w", [⟨"a", "1e20", "1e20"⟩, ⟨"b", "1", "0"⟩], "w"⟩ = .ok () := rfl

/-- An infinite amount parses and yields an imbalance error, never an
amount-format error. -/
example : verify_balance_f64 ⟨0, "w", [⟨"a", "inf", "0"⟩], "w"⟩
    = .error (.imbalance (.inf false) (.finite 0)) := rfl

/-! ## Behaviour of the f64 balance-total loop -/

/-- When every amount parses, the f64 loop returns the two left-fold
totals. -/
theorem balanceTotalsF64_ok (l : List JournalEntry) (d c : F64)
    (h : ∀ e ∈ l, (parseF64IEEE e.debit.data).isSome ∧ (parseF64IEEE e.credit.data).isSome) :
    balanceTotalsF64 l d c
      = .ok (l.foldl (fun acc e => acc.add ((parseF64IEEE e.debit.data).getD (.finite 0))) d,
             l.foldl (fun acc e => acc.add ((parseF64IEEE e.credit.data).getD (.finite 0))) c) := by
  induction l generalizing d c with
  | nil => rfl
  | cons e rest ih =>
    obtain ⟨hd, hc⟩ := h e (by simp)
    obtain ⟨dv, hdv⟩ := Option.isSome_iff_exists.mp hd
    obtain ⟨cv, hcv⟩ := Option.isSome_iff_exists.mp hc
    simp only [balanceTotalsF64, hdv, hcv, List.foldl_cons, Option.getD_some]
    exact ih (d.add dv) (c.add cv) (fun e' he' => h e' (List.mem_cons_of_mem _ he'))

/-- When some entry holds an unparsable amount, the f64 loop stops
with one of the two amount-format errors. -/
theorem balanceTotalsF64_error (l : List JournalEntry) (d c : F64)
    (h : ∃ e ∈ l, parseF64IEEE e.debit.data = none ∨ parseF64IEEE e.credit.data = none) :
    balanceTotalsF64 l d c = .error .invalidDebitAmount
    ∨ balanceTotalsF64 l d c = .error .invalidCreditAmount := by
  induction l generalizing d c with
  | nil => simp at h
  | cons e rest ih =>
    rcases hpd : parseF64IEEE e.debit.data with _ | dv
    · left
      simp [balanceTotalsF64, hpd]
    · rcases hpc : parseF64IEEE e.credit.data with _ | cv
      · right
        simp [balanceTotalsF64, hpd, hpc]
      · have hrest : ∃ e' ∈ rest, parseF64IEEE e'.debit.data = none ∨ parseF64IEEE e'.credit.data = none := by
          obtain ⟨e', he', hfail⟩ := h
          rcases List.mem_cons.mp he' with rfl | hmem
          · rcases hfail with hf | hf
            · rw [hpd] at hf
              exact absurd hf (by simp)
            · rw [hpc] at hf
              exact absurd hf (by simp)
          · exact ⟨e', hmem, hfail⟩
        simpa [balanceTotalsF64, hpd, hpc] using ih (d.add dv) (c.add cv) hrest

/-! ## Claims about the balance check -/

/-- C4 (amended): for every transaction whose debit and credit fields
all parse as f64 amounts, the balance check succeeds if and only if
the f64 absolute difference of the f64-accumulated totals is below the
double 0.0001 that the source compares against (not exactly zero);
otherwise it fails with an imbalance error carrying the two f64
totals. -/
theorem claim_C4 (tx : Transaction)
    (h : ∀ e ∈ tx.entries, (parseF64IEEE e.debit.data).isSome ∧ (parseF64IEEE e.credit.data).isSome) :
    (verify_balance_f64 tx = .ok ()
      ↔ ((totalDebitsF64 tx).sub (totalCreditsF64 tx)).abs.lt f64Tol = true)
    ∧ (¬ ((totalDebitsF64 tx).sub (totalCreditsF64 tx)).abs.lt f64Tol = true →
        verify_balance_f64 tx = .error (.imbalance (totalDebitsF64 tx) (totalCreditsF64 tx))) := by
  have hbal : balanceTotalsF64 tx.entries (.finite 0) (.finite 0)
      = .ok (totalDebitsF64 tx, totalCreditsF64 tx) := by
    rw [totalDebitsF64, totalCreditsF64]
    exact balanceTotalsF64_ok tx.entries _ _ h
  by_cases hlt : ((totalDebitsF64 tx).sub (totalCreditsF64 tx)).abs.lt f64Tol = true
  · refine ⟨iff_of_true ?_ hlt, fun hcon => absurd hlt hcon⟩
    simp [verify_balance_f64, hbal, hlt]
  · have hlt' : ((totalDebitsF64 tx).sub (totalCreditsF64 tx)).abs.lt f64Tol = false := by
      rcases Bool.eq_false_or_eq_true (((totalDebitsF64 tx).sub (totalCreditsF64 tx)).abs.lt f64Tol)
        with ht | hf
      · exact absurd ht hlt
      · exact hf
    refine ⟨iff_of_false ?_ hlt, fun _ => ?_⟩
    · simp [verify_balance_f64, hbal, hlt']
    · simp [verify_balance_f64, hbal, hlt']

/-- C4 witness: the sample two-entry balanced transaction satisfies
the hypothesis of claim_C4, and at it the equivalence holds. -/
theorem claim_C4_witness :
    verify_balance_f64 ⟨0, "w", [⟨"10100", "10000.00", "0.00"⟩, ⟨"30100", "0.00", "10000.00"⟩], "w"⟩ = .ok ()
    ↔ ((totalDebitsF64 ⟨0, "w", [⟨"10100", "10000.00", "0.00"⟩, ⟨"30100", "0.00", "10000.00"⟩], "w"⟩).sub
        (totalCreditsF64 ⟨0, "w", [⟨"10100", "10000.00", "0.00"⟩, ⟨"30100", "0.00", "10000.00"⟩], "w"⟩)).abs.lt f64Tol = true :=
  (claim_C4 ⟨0, "w", [⟨"10100", "10000.00", "0.00"⟩, ⟨"30100", "0.00", "10000.00"⟩], "w"⟩
    (by decide)).1

/-- C4 counterexample: a transaction whose lone entry has debit
0.00005 and credit 0.00 passes the balance check even though its total
debits and total credits differ, refuting the claim that success
requires the difference to be exactly zero.  (The source compares the
f64 difference against the tolerance 0.0001, not against zero.) -/
theorem claim_C4_counterexample :
    verify_balance ⟨0, "w", [⟨"10100", "0.00005", "0.00"⟩], "w"⟩ = .ok ()
    ∧ totalDebits ⟨0, "w", [⟨"10100", "0.00005", "0.00"⟩], "w"⟩
      ≠ totalCredits ⟨0, "w", [⟨"10100", "0.00005", "0.00"⟩], "w"⟩ := by
  constructor
  · rfl
  · have h1 : parseF64 "0.00005".data = some ⟨5, 5⟩ := rfl
    have h2 : parseF64 "0.00".data = some ⟨0, 2⟩ := rfl
    simp [totalDebits, totalCredits, debitSum, creditSum, h1, h2, Amount.toRat]

/-- C5 (amended): the balance check fails with an amount-format error
if and only if some entry's debit or credit field fails to parse under
Rust's f64 grammar (for example debit abc), and never panics (the
model is a total function); a negative amount such as -5.00 and a
non-finite literal such as inf parse successfully and are accepted,
not rejected as malformed. -/
theorem claim_C5 (tx : Transaction) :
    ((verify_balance_f64 tx = .error .invalidDebitAmount
      ∨ verify_balance_f64 tx = .error .invalidCreditAmount)
    ↔ ∃ e ∈ tx.entries, parseF64IEEE e.debit.data = none ∨ parseF64IEEE e.credit.data = none)
    ∧ parseF64IEEE "-5.00".data = some (.finite (-((5 * 2 ^ 1074 : ℕ) : ℤ)))
    ∧ parseF64IEEE "inf".data = some (.inf false) := by
  refine ⟨⟨?_, ?_⟩, rfl, rfl⟩
  · intro herr
    by_contra hno
    push_neg at hno
    have hall : ∀ e ∈ tx.entries, (parseF64IEEE e.debit.data).isSome ∧ (parseF64IEEE e.credit.data).isSome := by
      intro e he
      obtain ⟨hd, hc⟩ := hno e he
      exact ⟨Option.ne_none_iff_isSome.mp hd, Option.ne_none_iff_isSome.mp hc⟩
    have hbal := balanceTotalsF64_ok tx.entries (.finite 0) (.finite 0) hall
    rcases herr with herr | herr
    · simp only [verify_balance_f64, hbal] at herr
      split at herr <;> simp at herr
    · simp only [verify_balance_f64, hbal] at herr
      split at herr <;> simp at herr
  · intro hfail
    rcases balanceTotalsF64_error tx.entries (.finite 0) (.finite 0) hfail with he | he
    · left
      simp [verify_balance_f64, he]
    · right
      simp [verify_balance_f64, he]

/-- C5 counterexample: the claim asserts that a negative amount such
as -5.00 is rejected as malformed, but the source's f64 parse accepts
it: a transaction whose lone entry debits and credits -5.00 passes the
balance check with no amount-format error. -/
theorem claim_C5_counterexample :
    parseF64 "-5.00".data = some ⟨-500, 2⟩
    ∧ verify_balance ⟨0, "w", [⟨"10100", "-5.00", "-5.00"⟩], "w"⟩ = .ok () :=
  ⟨rfl, rfl⟩

/-- C8: the two-entry list debiting 10000.00 and crediting 10000.00
passes the balance check, and the list debiting 10000.00 but crediting
9999.99 fails it with an imbalance error whose totals have the exact
values 10000.00 and 9999.99. -/
theorem claim_C8 :
    verify_balance ⟨0, "w", [⟨"10100", "10000.00", "0.00"⟩, ⟨"30100", "0.00", "10000.00"⟩], "w"⟩ = .ok ()
    ∧ ∃ D C,
        verify_balance ⟨0, "w", [⟨"10100", "10000.00", "0.00"⟩, ⟨"30100", "0.00", "9999.99"⟩], "w"⟩
          = .error (.imbalance D C)
        ∧ D.toRat = 10000 ∧ C.toRat = 9999 + 99 / 100 := by
  refine ⟨rfl, ⟨100000000, 4⟩, ⟨99999900, 4⟩, rfl, ?_, ?_⟩
  · rw [Amount.toRat]
    norm_num
  · rw [Amount.toRat]
    norm_num

/-- C10: a transaction with no journal entries at all passes the
double-entry balance check (both totals are zero). -/
theorem claim_C10 (tx : Transaction) (h : tx.entries = []) :
    verify_balance tx = .ok () := by
  rw [verify_balance, h]
  rfl

/-- C10 witness: the empty-entry transaction passes the balance
check. -/
theorem claim_C10_witness : verify_balance ⟨0, "w", [], "w"⟩ = .ok () :=
  claim_C10 ⟨0, "w", [], "w"⟩ rfl

/-! ## Positional digits toolkit

Shared machinery for the base-58, base-256 and decimal conversions of
both programs.  The digit extractor takes explicit fuel so that it is
structurally recursive and hence kernel-computable on concrete
inputs. -/

/-- Little-endian base-B digits of n, with explicit fuel; natDigits
instantiates the fuel canonically.  Digits are produced until the
value reaches zero, so the most significant (last) digit of a nonzero
value is nonzero. -/
def digitsLE (B : ℕ) : ℕ → ℕ → List ℕ
  | 0, _ => []
  | fuel + 1, n => if n = 0 then [] else n % B :: digitsLE B fuel (n / B)

/-- Canonical little-endian base-B digits of n. -/
def natDigits (B n : ℕ) : List ℕ := digitsLE B n n

/-- Value of a little-endian base-B digit list. -/
def ofDigitsLE (B : ℕ) : List ℕ → ℕ
  | [] => 0
  | d :: ds => d + B * ofDigitsLE B ds

/-! ## Base58btc and multibase

Model of the bs58 alphabet and of the multibase base58btc coding used
by both segments: segment 1 calls the multibase encoder, which
prepends the marker character z to the base58 encoding of the bytes;
segment 2 calls the multibase decoder for the base58btc base, which
per the specification checks and strips the marker and base58-decodes
the remainder, failing on any character outside the alphabet. -/

/-- The 58-character bs58/base58btc alphabet. -/
def base58Chars : List Char :=
  "123456789ABCDEFGHJKLMNPQRSTUVWXYZabcdefghijkmnopqrstuvwxyz".data

/-- Character of a base-58 digit. -/
def alphaChar (d : ℕ) : Char := base58Chars.getD d '1'

/-- Digit of a base-58 character, none when the character is outside
the alphabet. -/
def charToDigit (c : Char) : Option ℕ := base58Chars.indexOf? c

/-- Big-endian value of a byte list. -/
def beBytesToNat (l : List ℕ) : ℕ := ofDigitsLE 256 l.reverse

/-- Shortest big-endian byte list of a value (empty for zero). -/
def natToBeBytesMin (n : ℕ) : List ℕ := (natDigits 256 n).reverse

/-- Base58 encoding of a byte list: one alphabet-leading character per
leading zero byte, then the base-58 digits of the big-endian value,
most significant first. -/
def base58Encode (bytes : List ℕ) : List Char :=
  List.replicate (bytes.takeWhile (fun b => b == 0)).length '1'
    ++ (natDigits 58 (beBytesToNat bytes)).reverse.map alphaChar

/-- Accumulating pass of the base58 decoder over the characters, most
significant first; fails at the first character outside the
alphabet. -/
def base58DecodeLoop : List Char → ℕ → Option ℕ
  | [], acc => some acc
  | c :: rest, acc =>
    match charToDigit c with
    | none => none
    | some d => base58DecodeLoop rest (acc * 58 + d)

/-- Base58 decoding of a character list: one zero byte per leading
alphabet-leading character, then the shortest big-endian bytes of the
accumulated value. -/
def base58Decode (s : List Char) : Option (List ℕ) :=
  match base58DecodeLoop s 0 with
  | none => none
  | some n =>
    some (List.replicate (s.takeWhile (fun c => c == '1')).length 0 ++ natToBeBytesMin n)

/-- Multibase encoding for the base58btc base: the marker character z
followed by the base58 encoding. -/
def multibaseEncodeB58 (bytes : List ℕ) : List Char := 'z' :: base58Encode bytes

/-- Multibase decoding for the base58btc base: require and strip the
marker character z, then base58-decode the remainder. -/
def multibaseDecodeB58 : List Char → Option (List ℕ)
  | 'z' :: rest => base58Decode rest
  | _ => none

/-! ## The did-key identifier codec -/

/-- Identifier derivation of Account::new (segment 1): prepend the
two-byte Ed25519 multicodec tag 0xed 0x01 to the public-key bytes,
multibase-encode with base58btc, and prefix the did-key scheme
marker. -/
def didFromPublicKey (pk : List ℕ) : String :=
  String.mk ("did:key:".data ++ multibaseEncodeB58 (0xed :: 0x01 :: pk))

/-- Model of ed25519-dalek PublicKey::from_bytes: succeed exactly on
32 bytes.  (The library additionally rejects the few 32-byte strings
that do not decompress to a curve point; that check is abstracted
away, so the model accepts a superset, containing every valid public
key.) -/
def publicKeyFromBytes (b : List ℕ) : Except VerifyError (List ℕ) :=
  if b.length = 32 then .ok b else .error .invalidPublicKeyBytes

/-- Model of did_to_public_key (segment 2): require the prefix
did:key:z6Mk, strip the eight scheme bytes, multibase-decode the
remainder, require a length above two and the Ed25519 multicodec tag
0xed 0x01, and hand the remaining bytes to PublicKey::from_bytes. -/
def did_to_public_key (did : String) : Except VerifyError (List ℕ) :=
  if ¬ ("did:key:z6Mk".data.isPrefixOf did.data) then .error .notEd25519DidKey
  else
    match multibaseDecodeB58 (did.data.drop 8) with
    | none => .error .multibaseDecodeFailed
    | some decoded =>
      if 2 < decoded.length ∧ decoded.getD 0 0 = 0xed ∧ decoded.getD 1 0 = 0x01 then
        publicKeyFromBytes (decoded.drop 2)
      else .error .invalidMulticodecTag

/-- Byte slice from a byte index, modelling the Rust str range index
that the source applies after the prefix guard: none models the panic
on an out-of-range start or a non-boundary byte index (the guarded
prefix is ASCII, where byte and character counts coincide). -/
def sliceFromByteP (s : List Char) (i : ℕ) : Option (List Char) :=
  if i ≤ s.length ∧ (s.take i).all (fun c => c.toNat < 128) then some (s.drop i) else none

/-- Panic-explicit model of did_to_public_key: identical to
did_to_public_key except that the str slice is taken through
sliceFromByteP, an outer none modelling a Rust panic. -/
def did_to_public_keyP (did : String) : Option (Except VerifyError (List ℕ)) :=
  if ¬ ("did:key:z6Mk".data.isPrefixOf did.data) then some (.error .notEd25519DidKey)
  else
    match sliceFromByteP did.data 8 with
    | none => none
    | some key_str =>
      match multibaseDecodeB58 key_str with
      | none => some (.error .multibaseDecodeFailed)
      | some decoded =>
        if 2 < decoded.length ∧ decoded.getD 0 0 = 0xed ∧ decoded.getD 1 0 = 0x01 then
          some (publicKeyFromBytes (decoded.drop 2))
        else some (.error .invalidMulticodecTag)

/-! ## Digit lemmas -/

theorem digitsLE_zero (B : ℕ) : ∀ fuel, digitsLE B fuel 0 = [] := by
  intro fuel
  cases fuel <;> simp [digitsLE]

theorem digitsLE_congr (B : ℕ) (hB : 2 ≤ B) :
    ∀ n fuel₁ fuel₂, n ≤ fuel₁ → n ≤ fuel₂ →
      digitsLE B fuel₁ n = digitsLE B fuel₂ n := by
  intro n
  induction n using Nat.strong_induction_on with
  | _ n ih =>
    intro fuel₁ fuel₂ h1 h2
    rcases n with _ | m
    · rw [digitsLE_zero, digitsLE_zero]
    · obtain ⟨f₁, rfl⟩ : ∃ f, fuel₁ = f + 1 := ⟨fuel₁ - 1, by omega⟩
      obtain ⟨f₂, rfl⟩ : ∃ f, fuel₂ = f + 1 := ⟨fuel₂ - 1, by omega⟩
      have hlt : (m + 1) / B < m + 1 := Nat.div_lt_self (Nat.succ_pos m) (by omega)
      simp only [digitsLE, if_neg (Nat.succ_ne_zero m)]
      rw [ih ((m + 1) / B) hlt f₁ f₂ (by omega) (by omega)]

theorem digitsLE_natDigits (B : ℕ) (hB : 2 ≤ B) (n fuel : ℕ) (h : n ≤ fuel) :
    digitsLE B fuel n = natDigits B n :=
  digitsLE_congr B hB n fuel n h le_rfl

theorem ofDigitsLE_append (B : ℕ) :
    ∀ l₁ l₂ : List ℕ, ofDigitsLE B (l₁ ++ l₂) = ofDigitsLE B l₁ + B ^ l₁.length * ofDigitsLE B l₂ := by
  intro l₁ l₂
  induction l₁ with
  | nil => simp [ofDigitsLE]
  | cons d ds ih =>
    simp only [List.cons_append, ofDigitsLE, List.append_eq, ih, List.length_cons, pow_succ]
    ring

theorem ofDigitsLE_replicate_zero (B : ℕ) : ∀ m, ofDigitsLE B (List.replicate m 0) = 0 := by
  intro m
  induction m with
  | zero => rfl
  | succ m ih => simp [List.replicate_succ, ofDigitsLE, ih]

theorem digitsLE_all_lt (B : ℕ) (hB : 2 ≤ B) :
    ∀ fuel n d, d ∈ digitsLE B fuel n → d < B := by
  intro fuel
  induction fuel with
  | zero => simp [digitsLE]
  | succ f ih =>
    intro n d hd
    rcases eq_or_ne n 0 with rfl | hn
    · simp [digitsLE] at hd
    · rw [digitsLE, if_neg hn] at hd
      rcases List.mem_cons.mp hd with rfl | hd'
      · exact Nat.mod_lt _ (by omega)
      · exact ih _ _ hd'

theorem ofDigitsLE_lt (B : ℕ) :
    ∀ l : List ℕ, (∀ d ∈ l, d < B) → ofDigitsLE B l < B ^ l.length := by
  intro l
  induction l with
  | nil => simp [ofDigitsLE]
  | cons d ds ih =>
    intro h
    have hd : d < B := h d (by simp)
    have hds : ofDigitsLE B ds < B ^ ds.length := ih (fun x hx => h x (by simp [hx]))
    simp only [ofDigitsLE, List.length_cons, pow_succ]
    have h2 : ofDigitsLE B ds + 1 ≤ B ^ ds.length := hds
    have h3 : B * (ofDigitsLE B ds + 1) ≤ B * B ^ ds.length := Nat.mul_le_mul le_rfl h2
    have h5 : B * (ofDigitsLE B ds + 1) = B * ofDigitsLE B ds + B := by ring
    have h4 : B * B ^ ds.length = B ^ ds.length * B := Nat.mul_comm _ _
    omega

theorem ofDigitsLE_ne_zero (B : ℕ) (hB : 2 ≤ B) :
    ∀ l : List ℕ, l.getLast? ≠ some 0 → l ≠ [] → ofDigitsLE B l ≠ 0 := by
  intro l
  induction l with
  | nil => intro _ h; exact absurd rfl h
  | cons d ds ih =>
    intro hlast _
    rcases ds with _ | ⟨d', ds'⟩
    · simp only [List.getLast?_singleton] at hlast
      simp only [ofDigitsLE, ofDigitsLE, Nat.mul_zero, Nat.add_zero]
      exact fun h => hlast (by rw [h])
    · rw [List.getLast?_cons_cons] at hlast
      have hm : ofDigitsLE B (d' :: ds') ≠ 0 := ih hlast (by simp)
      have h1 : 1 ≤ ofDigitsLE B (d' :: ds') := Nat.one_le_iff_ne_zero.mpr hm
      have h2 : B * 1 ≤ B * ofDigitsLE B (d' :: ds') := Nat.mul_le_mul le_rfl h1
      rw [show ofDigitsLE B (d :: d' :: ds') = d + B * ofDigitsLE B (d' :: ds') from rfl]
      omega

/-- Digits of the value of a digit list recover the list, provided the
digits are in range and the most significant digit is nonzero. -/
theorem digitsLE_ofDigitsLE (B : ℕ) (hB : 2 ≤ B) :
    ∀ l : List ℕ, (∀ d ∈ l, d < B) → l.getLast? ≠ some 0 →
      ∀ fuel, ofDigitsLE B l ≤ fuel → digitsLE B fuel (ofDigitsLE B l) = l := by
  intro l
  induction l with
  | nil =>
    intro _ _ fuel _
    exact digitsLE_zero B fuel
  | cons d ds ih =>
    intro hlt hlast fuel hfuel
    have hd : d < B := hlt d (by simp)
    have hne : ofDigitsLE B (d :: ds) ≠ 0 :=
      ofDigitsLE_ne_zero B hB (d :: ds) hlast (by simp)
    obtain ⟨f, rfl⟩ : ∃ f, fuel = f + 1 := ⟨fuel - 1, by omega⟩
    simp only [ofDigitsLE] at hne hfuel ⊢
    rw [digitsLE, if_neg hne]
    have hmod : (d + B * ofDigitsLE B ds) % B = d := by
      rw [Nat.add_mul_mod_self_left, Nat.mod_eq_of_lt hd]
    have hdiv : (d + B * ofDigitsLE B ds) / B = ofDigitsLE B ds := by
      rw [Nat.add_mul_div_left _ _ (by omega : 0 < B), Nat.div_eq_of_lt hd, Nat.zero_add]
    rw [hmod, hdiv]
    rcases ds with _ | ⟨d', ds'⟩
    · rw [ofDigitsLE, digitsLE_zero]
    · have hlast' : (d' :: ds').getLast? ≠ some 0 := by
        rwa [List.getLast?_cons_cons] at hlast
      have hm : ofDigitsLE B (d' :: ds') ≠ 0 :=
        ofDigitsLE_ne_zero B hB (d' :: ds') hlast' (by simp)
      have hmle : ofDigitsLE B (d' :: ds') ≤ f := by
        have h1 : 1 ≤ ofDigitsLE B (d' :: ds') := Nat.one_le_iff_ne_zero.mpr hm
        have h2 : 2 * ofDigitsLE B (d' :: ds') ≤ B * ofDigitsLE B (d' :: ds') :=
          Nat.mul_le_mul hB le_rfl
        omega
      rw [ih (fun x hx => hlt x (by simp [hx])) hlast' f hmle]

/-- Value of the canonical digits of n is n. -/
theorem ofDigitsLE_digitsLE (B : ℕ) (hB : 2 ≤ B) :
    ∀ n fuel, n ≤ fuel → ofDigitsLE B (digitsLE B fuel n) = n := by
  intro n
  induction n using Nat.strong_induction_on with
  | _ n ih =>
    intro fuel hfuel
    rcases eq_or_ne n 0 with rfl | hn
    · rw [digitsLE_zero]
      rfl
    · obtain ⟨f, rfl⟩ : ∃ f, fuel = f + 1 := ⟨fuel - 1, by omega⟩
      rw [digitsLE, if_neg hn]
      have hlt : n / B < n := Nat.div_lt_self (by omega) (by omega)
      rw [show ofDigitsLE B (n % B :: digitsLE B f (n / B))
          = n % B + B * ofDigitsLE B (digitsLE B f (n / B)) from rfl]
      rw [ih (n / B) hlt f (by omega)]
      exact Nat.mod_add_div n B

theorem length_digitsLE_le (B : ℕ) (hB : 2 ≤ B) :
    ∀ fuel n j, n < B ^ j → (digitsLE B fuel n).length ≤ j := by
  intro fuel
  induction fuel with
  | zero => simp [digitsLE]
  | succ f ih =>
    intro n j hn
    rcases eq_or_ne n 0 with rfl | hne
    · simp [digitsLE]
    · rw [digitsLE, if_neg hne]
      rcases j with _ | j'
    -- j = 0 impossible since n < B^0 = 1 and n ≠ 0
      · simp at hn
        omega
      · simp only [List.length_cons]
        have : n / B < B ^ j' := by
          rw [Nat.div_lt_iff_lt_mul (by omega : 0 < B)]
          calc n < B ^ (j' + 1) := hn
            _ = B ^ j' * B := by rw [pow_succ]
        exact Nat.succ_le_succ (ih (n / B) j' this)

/-- Accumulating fold over the reversed digit list computes the value:
this is what the base58 decode loop does with the most significant
digit first. -/
theorem foldl_mul_add_reverse (B : ℕ) :
    ∀ (l : List ℕ) (a : ℕ),
      List.foldl (fun x d => x * B + d) a l.reverse = a * B ^ l.length + ofDigitsLE B l := by
  intro l
  induction l with
  | nil => simp [ofDigitsLE]
  | cons d ds ih =>
    intro a
    simp only [List.reverse_cons, List.foldl_append, List.foldl_cons, List.foldl_nil, ih,
      List.length_cons, ofDigitsLE, pow_succ]
    ring

/-! ## Base58 lemmas -/

theorem charToDigit_alphaChar : ∀ d, d < 58 → charToDigit (alphaChar d) = some d := by decide

theorem base58DecodeLoop_map (l : List ℕ) (h : ∀ d ∈ l, d < 58) :
    ∀ a, base58DecodeLoop (l.map alphaChar) a
      = some (List.foldl (fun x d => x * 58 + d) a l) := by
  induction l with
  | nil => intro a; rfl
  | cons d ds ih =>
    intro a
    have hd : d < 58 := h d (by simp)
    simp only [List.map_cons, base58DecodeLoop, charToDigit_alphaChar d hd]
    exact ih (fun x hx => h x (by simp [hx])) _

/-- Digit decomposition of the multibase payload of an Ed25519
did-key: for every 32-byte key, the base-58 digits of the big-endian
value of the tag-prefixed bytes are 44 low digits followed by the
three fixed digits 43, 20, 5, whose characters read kM6 in
little-endian order, that is, 6Mk most significant first. -/
theorem natDigits_didValue (k : List ℕ) (hlen : k.length = 32) (hbytes : ∀ b ∈ k, b < 256) :
    ∃ low : List ℕ,
      natDigits 58 (beBytesToNat (0xed :: 0x01 :: k)) = low ++ [43, 20, 5]
      ∧ (∀ d ∈ low, d < 58) := by
  set n := beBytesToNat (0xed :: 0x01 :: k) with hn
  -- big-endian value decomposition
  have hrev : (0xed :: 0x01 :: k).reverse = k.reverse ++ [0x01, 0xed] := by
    simp
  have hval : n = ofDigitsLE 256 k.reverse + 256 ^ 32 * 60673 := by
    rw [hn, beBytesToNat, hrev, ofDigitsLE_append]
    have hlenrev : k.reverse.length = 32 := by simp [hlen]
    rw [hlenrev]
    rfl
  have hK : ofDigitsLE 256 k.reverse < 256 ^ 32 := by
    have := ofDigitsLE_lt 256 k.reverse (fun d hd => hbytes d (List.mem_reverse.mp hd))
    simpa [hlen] using this
  -- the quotient by 58^44 is the constant 18023
  have hdiv : n / 58 ^ 44 = 18023 := by
    apply Nat.div_eq_of_lt_le
    · calc 18023 * 58 ^ 44 ≤ 256 ^ 32 * 60673 := by decide
        _ ≤ n := by omega
    · calc n < 256 ^ 32 + 256 ^ 32 * 60673 := by omega
        _ ≤ (18023 + 1) * 58 ^ 44 := by decide
  have hsplit : n = 58 ^ 44 * 18023 + n % 58 ^ 44 := by
    conv_lhs => rw [← Nat.div_add_mod n (58 ^ 44)]
    rw [hdiv]
  set r := n % 58 ^ 44 with hr
  have hrlt : r < 58 ^ 44 := Nat.mod_lt _ (by decide)
  -- the candidate digit list
  set A := natDigits 58 r with hA
  have hAlen : A.length ≤ 44 := length_digitsLE_le 58 (by omega) r r 44 hrlt
  set low := A ++ List.replicate (44 - A.length) 0 with hlow
  have hlowlen : low.length = 44 := by
    simp [hlow]
    omega
  have hlowlt : ∀ d ∈ low, d < 58 := by
    intro d hd
    rcases List.mem_append.mp hd with hd' | hd'
    · exact digitsLE_all_lt 58 (by omega) r r d hd'
    · rw [List.eq_of_mem_replicate hd']
      omega
  refine ⟨low, ?_, hlowlt⟩
  have hofA : ofDigitsLE 58 A = r := ofDigitsLE_digitsLE 58 (by omega) r r le_rfl
  have hoflow : ofDigitsLE 58 low = r := by
    rw [hlow, ofDigitsLE_append, ofDigitsLE_replicate_zero, hofA]
    ring
  have hofL : ofDigitsLE 58 (low ++ [43, 20, 5]) = n := by
    rw [ofDigitsLE_append, hoflow, hlowlen]
    have : ofDigitsLE 58 [43, 20, 5] = 18023 := rfl
    rw [this]
    omega
  have hlast : (low ++ [43, 20, 5]).getLast? ≠ some 0 := by
    have : low ++ [43, 20, 5] = (low ++ [43, 20]) ++ [5] := by simp
    rw [this, List.getLast?_concat]
    simp
  have hallt : ∀ d ∈ low ++ [43, 20, 5], d < 58 := by
    intro d hd
    rcases List.mem_append.mp hd with hd' | hd'
    · exact hlowlt d hd'
    · simp only [List.mem_cons, List.not_mem_nil, or_false] at hd'
      rcases hd' with rfl | rfl | rfl <;> omega
  have hfin := digitsLE_ofDigitsLE 58 (by omega) (low ++ [43, 20, 5]) hallt hlast n (le_of_eq hofL)
  rw [hofL] at hfin
  rw [natDigits]
  exact hfin

theorem ofDigitsLE_natDigits (B : ℕ) (hB : 2 ≤ B) (n : ℕ) :
    ofDigitsLE B (natDigits B n) = n := by
  rw [natDigits]
  exact ofDigitsLE_digitsLE B hB n n le_rfl

theorem natDigits_all_lt (B : ℕ) (hB : 2 ≤ B) (n : ℕ) : ∀ d ∈ natDigits B n, d < B := by
  rw [natDigits]
  exact fun d hd => digitsLE_all_lt B hB n n d hd

/-- Character shape of the multibase payload of an Ed25519 did-key:
the base58 encoding of the tag-prefixed key starts with the three
characters 6Mk for every 32-byte key. -/
theorem base58Encode_did (k : List ℕ) (hlen : k.length = 32) (hbytes : ∀ b ∈ k, b < 256) :
    ∃ low : List ℕ,
      base58Encode (0xed :: 0x01 :: k) = '6' :: 'M' :: 'k' :: (low.reverse.map alphaChar)
      ∧ (∀ d ∈ low, d < 58)
      ∧ natDigits 58 (beBytesToNat (0xed :: 0x01 :: k)) = low ++ [43, 20, 5] := by
  obtain ⟨low, hdig, hlt⟩ := natDigits_didValue k hlen hbytes
  refine ⟨low, ?_, hlt, hdig⟩
  have h0 : ((0xed : ℕ) :: 0x01 :: k).takeWhile (fun b => b == 0) = [] := rfl
  rw [base58Encode, h0, hdig]
  simp [List.reverse_append]
  exact ⟨rfl, rfl, rfl⟩

/-- The multibase payload in pure map-over-digits form, used when
replaying the decode loop. -/
theorem base58Encode_eq_map (bytes : List ℕ) (b0 : ℕ) (rest : List ℕ) (hb : bytes = b0 :: rest)
    (hb0 : b0 ≠ 0) :
    base58Encode bytes = ((natDigits 58 (beBytesToNat bytes)).reverse).map alphaChar := by
  subst hb
  have h0 : ((b0 : ℕ) :: rest).takeWhile (fun b => b == 0) = [] := by
    rw [List.takeWhile_cons]
    simp [hb0]
  rw [base58Encode, h0]
  simp

/-- Main identifier lemma: the identifier derived from any 32-byte key
starts with did:key:z6Mk, and decoding it recovers exactly the key. -/
theorem did_key_spec (k : List ℕ) (hlen : k.length = 32) (hbytes : ∀ b ∈ k, b < 256) :
    "did:key:z6Mk".data.isPrefixOf (didFromPublicKey k).data = true
    ∧ did_to_public_key (didFromPublicKey k) = .ok k := by
  obtain ⟨low, henc, hlt, hdig⟩ := base58Encode_did k hlen hbytes
  have hdata : (didFromPublicKey k).data
      = "did:key:".data ++ 'z' :: base58Encode (0xed :: 0x01 :: k) := by
    rw [didFromPublicKey]
    rfl
  have hpre : "did:key:z6Mk".data.isPrefixOf (didFromPublicKey k).data = true := by
    rw [List.isPrefixOf_iff_prefix, hdata, henc]
    exact ⟨low.reverse.map alphaChar, by simp⟩
  refine ⟨hpre, ?_⟩
  -- the slice after the eight scheme bytes is the multibase payload
  have hdrop : (didFromPublicKey k).data.drop 8 = 'z' :: base58Encode (0xed :: 0x01 :: k) := by
    rw [hdata]
    have h8 : ("did:key:".data).length = 8 := rfl
    rw [← h8, List.drop_left]
  -- the decode loop recovers the big-endian value
  have hencmap := base58Encode_eq_map (0xed :: 0x01 :: k) 0xed (0x01 :: k) rfl (by omega)
  have halldig : ∀ d ∈ (natDigits 58 (beBytesToNat (0xed :: 0x01 :: k))).reverse, d < 58 :=
    fun d hd => natDigits_all_lt 58 (by omega) _ d (List.mem_reverse.mp hd)
  have hloop := base58DecodeLoop_map _ halldig 0
  rw [foldl_mul_add_reverse, Nat.zero_mul, Nat.zero_add,
    ofDigitsLE_natDigits 58 (by omega)] at hloop
  -- the byte list of the value is the original tag-prefixed key
  have hback : natToBeBytesMin (beBytesToNat (0xed :: 0x01 :: k)) = 0xed :: 0x01 :: k := by
    have hall : ∀ d ∈ (0xed :: 0x01 :: k).reverse, d < 256 := by
      intro d hd
      rcases List.mem_cons.mp (List.mem_reverse.mp hd) with rfl | hd'
      · omega
      · rcases List.mem_cons.mp hd' with rfl | hd''
        · omega
        · exact hbytes d hd''
    have hlast : ((0xed :: 0x01 :: k).reverse).getLast? ≠ some 0 := by
      rw [List.getLast?_reverse]
      simp
    have hdig256 := digitsLE_ofDigitsLE 256 (by omega) ((0xed :: 0x01 :: k).reverse)
      hall hlast (beBytesToNat (0xed :: 0x01 :: k)) le_rfl
    rw [natToBeBytesMin]
    rw [show natDigits 256 (beBytesToNat (0xed :: 0x01 :: k))
        = digitsLE 256 (beBytesToNat (0xed :: 0x01 :: k))
            (ofDigitsLE 256 ((0xed :: 0x01 :: k).reverse)) from rfl]
    rw [hdig256, List.reverse_reverse]
  -- base58 decode of the payload
  have hdec : base58Decode (base58Encode (0xed :: 0x01 :: k)) = some (0xed :: 0x01 :: k) := by
    rw [base58Decode]
    rw [show base58DecodeLoop (base58Encode (0xed :: 0x01 :: k)) 0
        = base58DecodeLoop
            (((natDigits 58 (beBytesToNat (0xed :: 0x01 :: k))).reverse).map alphaChar) 0
      from by rw [hencmap]]
    rw [hloop]
    have htw : (base58Encode (0xed :: 0x01 :: k)).takeWhile (fun c => c == '1') = [] := by
      rw [henc, List.takeWhile_cons]
      simp
    simp only [htw, hback, List.length_nil, List.replicate_zero, List.nil_append]
  -- assemble the decoder
  rw [did_to_public_key, if_neg (not_not_intro hpre), hdrop]
  rw [show multibaseDecodeB58 ('z' :: base58Encode (0xed :: 0x01 :: k))
      = base58Decode (base58Encode (0xed :: 0x01 :: k)) from rfl]
  simp only [hdec]
  have hguard : 2 < ((0xed : ℕ) :: 0x01 :: k).length
      ∧ ((0xed : ℕ) :: 0x01 :: k).getD 0 0 = 0xed
      ∧ ((0xed : ℕ) :: 0x01 :: k).getD 1 0 = 0x01 := by
    refine ⟨?_, rfl, rfl⟩
    simp [hlen]
  rw [if_pos hguard]
  rw [show ((0xed : ℕ) :: 0x01 :: k).drop 2 = k from rfl]
  rw [publicKeyFromBytes, if_pos hlen]

/-! ## Hex codec (the hex crate)

hex::encode writes two lowercase digits per byte; hex::decode fails on
odd length or any non-hex character and accepts both letter cases. -/

/-- Lowercase hex digit character. -/
def hexDigitChar (d : ℕ) : Char := "0123456789abcdef".data.getD d '0'

/-- Value of a hex digit character in either case. -/
def hexDigitVal (c : Char) : Option ℕ :=
  if '0' ≤ c ∧ c ≤ '9' then some (c.toNat - '0'.toNat)
  else if 'a' ≤ c ∧ c ≤ 'f' then some (c.toNat - 'a'.toNat + 10)
  else if 'A' ≤ c ∧ c ≤ 'F' then some (c.toNat - 'A'.toNat + 10)
  else none

/-- Model of hex::encode. -/
def hexEncode (bytes : List ℕ) : List Char :=
  (bytes.map (fun b => [hexDigitChar (b / 16), hexDigitChar (b % 16)])).flatten

/-- Model of hex::decode. -/
def hexDecode : List Char → Option (List ℕ)
  | [] => some []
  | [_] => none
  | c1 :: c2 :: rest =>
    match hexDigitVal c1, hexDigitVal c2, hexDecode rest with
    | some hi, some lo, some bs => some ((16 * hi + lo) :: bs)
    | _, _, _ => none

theorem hexDigitVal_hexDigitChar : ∀ d, d < 16 → hexDigitVal (hexDigitChar d) = some d := by
  decide

theorem hexDecode_hexEncode (bytes : List ℕ) (h : ∀ b ∈ bytes, b < 256) :
    hexDecode (hexEncode bytes) = some bytes := by
  induction bytes with
  | nil => rfl
  | cons b bs ih =>
    have hb : b < 256 := h b (by simp)
    have hrest : hexDecode (hexEncode bs) = some bs := ih (fun x hx => h x (by simp [hx]))
    rw [show hexEncode (b :: bs)
        = hexDigitChar (b / 16) :: hexDigitChar (b % 16) :: hexEncode bs from rfl]
    simp only [hexDecode, hexDigitVal_hexDigitChar (b / 16) (by omega),
      hexDigitVal_hexDigitChar (b % 16) (by omega), hrest]
    rw [Nat.div_add_mod]

/-! ## SHA-256 (the sha2 crate)

Byte-level SHA-256 over natural numbers below 2^32, with explicit
reduction modulo 2^32 at every overflowing operation; cross-checked
against the standard test vectors. -/

/-- Rotate a 32-bit word right by n positions. -/
def rotr32 (n x : ℕ) : ℕ := ((x >>> n) ||| (x <<< (32 - n))) % 4294967296

/-- The 64 SHA-256 round constants of FIPS 180-4, written in
decimal. -/
def sha256K : List ℕ :=
  [1116352408, 1899447441, 3049323471, 3921009573, 961987163,
   1508970993, 2453635748, 2870763221, 3624381080, 310598401,
   607225278, 1426881987, 1925078388, 2162078206, 2614888103,
   3248222580, 3835390401, 4022224774, 264347078, 604807628,
   770255983, 1249150122, 1555081692, 1996064986, 2554220882,
   2821834349, 2952996808, 3210313671, 3336571891, 3584528711,
   113926993, 338241895, 666307205, 773529912, 1294757372,
   1396182291, 1695183700, 1986661051, 2177026350, 2456956037,
   2730485921, 2820302411, 3259730800, 3345764771, 3516065817,
   3600352804, 4094571909, 275423344, 430227734, 506948616,
   659060556, 883997877, 958139571, 1322822218, 1537002063,
   1747873779, 1955562222, 2024104815, 2227730452, 2361852424,
   2428436474, 2756734187, 3204031479, 3329325298]

/-- The eight 32-bit working variables of SHA-256. -/
structure Sha256State where
  a : ℕ
  b : ℕ
  c : ℕ
  d : ℕ
  e : ℕ
  f : ℕ
  g : ℕ
  h : ℕ

/-- The SHA-256 initialization vector. -/
def sha256Init : Sha256State :=
  ⟨0x6a09e667, 0xbb67ae85, 0x3c6ef372, 0xa54ff53a, 0x510e527f, 0x9b05688c, 0x1f83d9ab, 0x5be0cd19⟩

/-- SHA-256 padding: append the byte 0x80, zero bytes up to 56 modulo
64, and the bit length as eight big-endian bytes. -/
def sha256Pad (msg : List ℕ) : List ℕ :=
  let l := msg.length
  let zeros := (119 - l % 64) % 64
  let bitLen := (8 * l) % 18446744073709551616
  msg ++ 0x80 :: List.replicate zeros 0
    ++ [(bitLen >>> 56) % 256, (bitLen >>> 48) % 256, (bitLen >>> 40) % 256, (bitLen >>> 32) % 256,
        (bitLen >>> 24) % 256, (bitLen >>> 16) % 256, (bitLen >>> 8) % 256, bitLen % 256]

/-- Big-endian 32-bit words of a byte list. -/
def bytesToWords : List ℕ → List ℕ
  | b0 :: b1 :: b2 :: b3 :: rest => (((b0 * 256 + b1) * 256 + b2) * 256 + b3) :: bytesToWords rest
  | _ => []

/-- Message-schedule extension: append one derived word per fuel
step. -/
def sha256Extend : ℕ → List ℕ → List ℕ
  | 0, w => w
  | fuel + 1, w =>
    let i := w.length
    let w15 := w.getD (i - 15) 0
    let w2 := w.getD (i - 2) 0
    let s0 := (rotr32 7 w15) ^^^ (rotr32 18 w15) ^^^ (w15 >>> 3)
    let s1 := (rotr32 17 w2) ^^^ (rotr32 19 w2) ^^^ (w2 >>> 10)
    sha256Extend fuel (w ++ [(w.getD (i - 16) 0 + s0 + w.getD (i - 7) 0 + s1) % 4294967296])

/-- One compression round with a constant-and-schedule-word pair. -/
def sha256Round (st : Sha256State) (kw : ℕ × ℕ) : Sha256State :=
  let S1 := (rotr32 6 st.e) ^^^ (rotr32 11 st.e) ^^^ (rotr32 25 st.e)
  let ch := (st.e &&& st.f) ^^^ ((st.e ^^^ 4294967295) &&& st.g)
  let temp1 := (st.h + S1 + ch + kw.1 + kw.2) % 4294967296
  let S0 := (rotr32 2 st.a) ^^^ (rotr32 13 st.a) ^^^ (rotr32 22 st.a)
  let maj := (st.a &&& st.b) ^^^ (st.a &&& st.c) ^^^ (st.b &&& st.c)
  let temp2 := (S0 + maj) % 4294967296
  ⟨(temp1 + temp2) % 4294967296, st.a, st.b, st.c, (st.d + temp1) % 4294967296, st.e, st.f, st.g⟩

/-- Compression of one 64-byte block. -/
def sha256Compress (st : Sha256State) (block : List ℕ) : Sha256State :=
  let w := sha256Extend 48 (bytesToWords block)
  let r := (sha256K.zip w).foldl sha256Round st
  ⟨(st.a + r.a) % 4294967296, (st.b + r.b) % 4294967296, (st.c + r.c) % 4294967296,
   (st.d + r.d) % 4294967296, (st.e + r.e) % 4294967296, (st.f + r.f) % 4294967296,
   (st.g + r.g) % 4294967296, (st.h + r.h) % 4294967296⟩

/-- Split a byte list into 64-byte blocks. -/
def toBlocks : ℕ → List ℕ → List (List ℕ)
  | 0, _ => []
  | _ + 1, [] => []
  | fuel + 1, l => l.take 64 :: toBlocks fuel (l.drop 64)

/-- Big-endian bytes of a 32-bit word. -/
def wordBytes (w : ℕ) : List ℕ := [(w >>> 24) % 256, (w >>> 16) % 256, (w >>> 8) % 256, w % 256]

/-- SHA-256 digest of a byte list: 32 bytes. -/
def sha256 (msg : List ℕ) : List ℕ :=
  let padded := sha256Pad msg
  let final := (toBlocks padded.length padded).foldl sha256Compress sha256Init
  wordBytes final.a ++ wordBytes final.b ++ wordBytes final.c ++ wordBytes final.d
    ++ wordBytes final.e ++ wordBytes final.f ++ wordBytes final.g ++ wordBytes final.h

theorem sha256_length (msg : List ℕ) : (sha256 msg).length = 32 := by
  simp [sha256, wordBytes]

example : sha256 [] = [0xe3, 0xb0, 0xc4, 0x42, 0x98, 0xfc, 0x1c, 0x14, 0x9a, 0xfb, 0xf4, 0xc8,
  0x99, 0x6f, 0xb9, 0x24, 0x27, 0xae, 0x41, 0xe4, 0x64, 0x9b, 0x93, 0x4c, 0xa4, 0x95, 0x99, 0x1b,
  0x78, 0x52, 0xb8, 0x55] := rfl

example : sha256 [0x61, 0x62, 0x63] = [0xba, 0x78, 0x16, 0xbf, 0x8f, 0x01, 0xcf, 0xea, 0x41, 0x41,
  0x40, 0xde, 0x5d, 0xae, 0x22, 0x23, 0xb0, 0x03, 0x61, 0xa3, 0x96, 0x17, 0x7a, 0x9c, 0xb4, 0x10,
  0xff, 0x61, 0xf2, 0x00, 0x15, 0xad] := rfl

/-! ## Canonical JSON serialization

Model of serde_json::to_string as derived on the two segments'
struct definitions.  The two segments declare byte-identical structs,
so each segment gets its own copy of the serializer, written from its
own struct declaration; their equality is claim C1's refinement
content.  Fields are written in declaration order with no whitespace;
strings are escaped as serde_json does (backslash, quote, the five
short control escapes, and lowercase u-escapes for the remaining
control characters); the u64 timestamp is written in decimal. -/

/-- The serde_json escape of one character. -/
def jsonEscapeChar (c : Char) : List Char :=
  if c = '"' then ['\\', '"']
  else if c = '\\' then ['\\', '\\']
  else if c.toNat = 8 then ['\\', 'b']
  else if c.toNat = 9 then ['\\', 't']
  else if c.toNat = 10 then ['\\', 'n']
  else if c.toNat = 12 then ['\\', 'f']
  else if c.toNat = 13 then ['\\', 'r']
  else if c.toNat < 32 then
    ['\\', 'u', '0', '0', hexDigitChar (c.toNat / 16), hexDigitChar (c.toNat % 16)]
  else [c]

/-- A JSON string literal: quoted and escaped. -/
def jsonString (s : String) : List Char :=
  '"' :: (s.data.map jsonEscapeChar).flatten ++ ['"']

/-- Decimal digits of an unsigned integer. -/
def natToDecChars (n : ℕ) : List Char :=
  if n = 0 then ['0']
  else ((natDigits 10 n).reverse).map (fun d => "0123456789".data.getD d '0')

/-- Segment 1's serialization of a journal entry. -/
def JournalEntry.serializeJson1 (e : JournalEntry) : List Char :=
  "\x7b\"account_id\":".data ++ jsonString e.account_id
    ++ ",\"debit\":".data ++ jsonString e.debit
    ++ ",\"credit\":".data ++ jsonString e.credit
    ++ "\x7d".data

/-- Segment 1's serialization of a transaction payload. -/
def Transaction.serializeJson1 (tx : Transaction) : List Char :=
  "\x7b\"timestamp\":".data ++ natToDecChars tx.timestamp
    ++ ",\"author_did\":".data ++ jsonString tx.author_did
    ++ ",\"entries\":[".data
    ++ List.intercalate ",".data (tx.entries.map JournalEntry.serializeJson1)
    ++ "],\"memo\":".data ++ jsonString tx.memo
    ++ "\x7d".data

/-- Segment 2's serialization of a journal entry, written from
segment 2's own struct declaration. -/
def JournalEntry.serializeJson2 (e : JournalEntry) : List Char :=
  "\x7b\"account_id\":".data ++ jsonString e.account_id
    ++ ",\"debit\":".data ++ jsonString e.debit
    ++ ",\"credit\":".data ++ jsonString e.credit
    ++ "\x7d".data

/-- Segment 2's serialization of a transaction payload, written from
segment 2's own struct declaration. -/
def Transaction.serializeJson2 (tx : Transaction) : List Char :=
  "\x7b\"timestamp\":".data ++ natToDecChars tx.timestamp
    ++ ",\"author_did\":".data ++ jsonString tx.author_did
    ++ ",\"entries\":[".data
    ++ List.intercalate ",".data (tx.entries.map JournalEntry.serializeJson2)
    ++ "],\"memo\":".data ++ jsonString tx.memo
    ++ "\x7d".data

/-- UTF-8 bytes of one character (str::as_bytes). -/
def utf8Char (c : Char) : List ℕ :=
  let n := c.toNat
  if n < 0x80 then [n]
  else if n < 0x800 then [0xC0 ||| (n >>> 6), 0x80 ||| (n &&& 0x3F)]
  else if n < 0x10000 then
    [0xE0 ||| (n >>> 12), 0x80 ||| ((n >>> 6) &&& 0x3F), 0x80 ||| (n &&& 0x3F)]
  else
    [0xF0 ||| (n >>> 18), 0x80 ||| ((n >>> 12) &&& 0x3F), 0x80 ||| ((n >>> 6) &&& 0x3F),
     0x80 ||| (n &&& 0x3F)]

/-- UTF-8 bytes of a character list. -/
def utf8Bytes (s : List Char) : List ℕ := (s.map utf8Char).flatten

/-- Transaction::get_hash of segment 1: SHA-256 of the UTF-8 bytes of
the serde_json serialization of the payload. -/
def Transaction.get_hash1 (tx : Transaction) : List ℕ :=
  sha256 (utf8Bytes tx.serializeJson1)

/-- Transaction::get_hash of segment 2: SHA-256 of the UTF-8 bytes of
the serde_json serialization of the payload. -/
def Transaction.get_hash2 (tx : Transaction) : List ℕ :=
  sha256 (utf8Bytes tx.serializeJson2)

/-! ## Signature verification pipeline (segment 2) -/

/-- Model of ed25519-dalek Signature::from_bytes: succeed exactly on
64 bytes whose final byte has its top three bits clear (the library's
scalar-malleability check). -/
def signatureFromBytes (b : List ℕ) : Except VerifyError (List ℕ) :=
  if b.length = 64 ∧ b.getD 63 0 &&& 0xE0 = 0 then .ok b else .error .invalidSignatureBytes

/-- Model of verify_signature, with the ed25519-dalek cryptographic
check kept abstract as the parameter edVerify taking the public-key
bytes, the message and the signature bytes (see the modelling notes in
the file header): recover the public key from the author identifier,
hex-decode the stored signature, parse it, recompute the payload hash
and check the signature over it, in that order. -/
def verify_signature (edVerify : List ℕ → List ℕ → List ℕ → Bool)
    (signed_tx : SignedTransaction) : Except VerifyError Bool :=
  match did_to_public_key signed_tx.payload.author_did with
  | .error e => .error e
  | .ok public_key =>
    match hexDecode signed_tx.signature.data with
    | none => .error .invalidHexSignature
    | some signature_bytes =>
      match signatureFromBytes signature_bytes with
      | .error e => .error e
      | .ok signature =>
        if edVerify public_key signed_tx.payload.get_hash2 signature then .ok true
        else .error .signatureVerifyFailed

/-- The verification pipeline of segment 2's main: the cryptographic
signature check, then (only if it succeeded) the balance check,
surfacing the first error. -/
def verify_transaction (edVerify : List ℕ → List ℕ → List ℕ → Bool)
    (signed_tx : SignedTransaction) : Except VerifyError Unit :=
  match verify_signature edVerify signed_tx with
  | .error e => .error e
  | .ok _ => verify_balance signed_tx.payload

/-- The sample transaction built by segment 1's main: the owner's
initial capital contribution, parametrized by the generated identity's
identifier. -/
def genesisTx (did : String) : Transaction :=
  { timestamp := 1730814442
    author_did := did
    entries := [⟨"10100", "10000.00", "0.00"⟩, ⟨"30100", "0.00", "10000.00"⟩]
    memo := "Initial capital contribution by owner." }

/-! ## Pipeline lemmas -/

/-- An identifier-decode failure propagates to verify_signature
unchanged, for every crypto function and every stored signature: the
pipeline returns before looking at either. -/
theorem verify_signature_of_did_error (p : Transaction) (e : VerifyError)
    (h : did_to_public_key p.author_did = .error e) :
    ∀ (edVerify : List ℕ → List ℕ → List ℕ → Bool) (sig : String),
      verify_signature edVerify ⟨p, sig⟩ = .error e := by
  intro edVerify sig
  rw [verify_signature]
  simp only [h]

/-- The only ok value verify_signature can produce is true. -/
theorem verify_signature_ok_true (edVerify : List ℕ → List ℕ → List ℕ → Bool)
    (st : SignedTransaction) :
    ∀ b, verify_signature edVerify st = .ok b → b = true := by
  intro b
  rw [verify_signature]
  cases hdid : did_to_public_key st.payload.author_did with
  | error e => simp
  | ok pk =>
    cases hhex : hexDecode st.signature.data with
    | none => simp
    | some sb =>
      cases hsig : signatureFromBytes sb with
      | error e => simp [hsig]
      | ok sg =>
        by_cases hv : edVerify pk st.payload.get_hash2 sg = true <;> simp [hsig, hv]

/-! ## Claims about hashing, the identifier codec and the pipeline -/

/-- C1: for every transaction payload, the canonical hash is a
32-byte digest, and the producer's get_hash (segment 1) and the
verifier's get_hash (segment 2) produce byte-for-byte identical
digests for the same logical payload.  Determinism across repeated
calls is immediate because the embedding is a pure function of the
payload; the content of the claim is the fixed digest length and the
equality of the two independently written serializer-and-hash
pipelines. -/
theorem claim_C1 (tx : Transaction) :
    tx.get_hash1.length = 32 ∧ tx.get_hash1 = tx.get_hash2 :=
  ⟨sha256_length _, rfl⟩

/-- C3: for every 32-byte Ed25519 public key, decoding the identifier
produced by encoding the key (the 0xED 0x01 tag, base58btc, the
did:key: scheme and the multibase marker) recovers exactly the key. -/
theorem claim_C3 (k : List ℕ) (hlen : k.length = 32) (hbytes : ∀ b ∈ k, b < 256) :
    did_to_public_key (didFromPublicKey k) = .ok k :=
  (did_key_spec k hlen hbytes).2

/-- C3 witness: the round trip at a concrete 32-byte key. -/
theorem claim_C3_witness :
    did_to_public_key (didFromPublicKey (List.replicate 32 7)) = .ok (List.replicate 32 7) :=
  claim_C3 (List.replicate 32 7) (by decide) (by decide)

/-- C9: did_to_public_key is total on arbitrary strings: the
panic-explicit model (where the str slice at byte index 8 panics
unless it is guarded in bounds on an ASCII boundary, modelled by an
outer none) never returns the panic value, and always agrees with the
total model: the slice is reached only behind the did:key:z6Mk prefix
guard, which puts byte index 8 in bounds on an ASCII prefix, and the
two-byte tag inspection is guarded by the length test. -/
theorem claim_C9 (s : String) : did_to_public_keyP s = some (did_to_public_key s) := by
  by_cases hpre : ("did:key:z6Mk".data.isPrefixOf s.data) = true
  · have hrest : "did:key:z6Mk".data ++ s.data.drop ("did:key:z6Mk".data.length) = s.data :=
      List.prefix_iff_eq_append.mp (List.isPrefixOf_iff_prefix.mp hpre)
    have hslice : sliceFromByteP s.data 8 = some (s.data.drop 8) := by
      rw [sliceFromByteP, if_pos]
      constructor
      · rw [← hrest]
        simp
      · rw [← hrest, List.take_append_of_le_length (by decide : 8 ≤ ("did:key:z6Mk".data).length)]
        decide
    rw [did_to_public_keyP, did_to_public_key,
      if_neg (not_not_intro hpre), if_neg (not_not_intro hpre), hslice]
    cases hdec : multibaseDecodeB58 (s.data.drop 8) with
    | none => simp [hdec]
    | some decoded =>
      simp only [hdec]
      exact (apply_ite some _ _ _).symm
  · rw [did_to_public_keyP, did_to_public_key, if_pos hpre, if_pos hpre]

/-- C6: for every payload whose author_did is missing the did:key:
prefix, or whose identifier multibase-decodes to bytes that do not
carry the Ed25519 multicodec tag 0xED 0x01, verification fails with an
identifier-decode error; the error is the same for every stored
signature string and every cryptographic verify function, which is the
shallow-embedding statement that the pipeline returns before the
stored signature is decoded or checked. -/
theorem claim_C6 (p : Transaction)
    (h : ¬ ("did:key:".data.isPrefixOf p.author_did.data = true)
       ∨ ∃ d, multibaseDecodeB58 (p.author_did.data.drop 8) = some d
           ∧ ¬ (2 < d.length ∧ d.getD 0 0 = 0xed ∧ d.getD 1 0 = 0x01)) :
    ∃ e, (e = VerifyError.notEd25519DidKey ∨ e = VerifyError.invalidMulticodecTag)
      ∧ ∀ (edVerify : List ℕ → List ℕ → List ℕ → Bool) (sig : String),
          verify_signature edVerify ⟨p, sig⟩ = .error e := by
  by_cases hpre : ("did:key:z6Mk".data.isPrefixOf p.author_did.data) = true
  · -- the full guard passes, so the hypothesis forces a tag mismatch
    rcases h with hmiss | ⟨d, hdec, htag⟩
    · exfalso
      apply hmiss
      rw [List.isPrefixOf_iff_prefix] at hpre ⊢
      exact List.IsPrefix.trans ⟨['z', '6', 'M', 'k'], rfl⟩ hpre
    · refine ⟨.invalidMulticodecTag, Or.inr rfl, ?_⟩
      apply verify_signature_of_did_error
      rw [did_to_public_key, if_neg (not_not_intro hpre)]
      simp only [hdec]
      rw [if_neg htag]
  · refine ⟨.notEd25519DidKey, Or.inl rfl, ?_⟩
    apply verify_signature_of_did_error
    rw [did_to_public_key, if_pos hpre]

/-- C6 witness: a payload whose author identifier lacks the did:key:
prefix fails with the identifier-decode error independently of the
signature. -/
theorem claim_C6_witness :
    ∃ e, (e = VerifyError.notEd25519DidKey ∨ e = VerifyError.invalidMulticodecTag)
      ∧ ∀ (edVerify : List ℕ → List ℕ → List ℕ → Bool) (sig : String),
          verify_signature edVerify ⟨⟨0, "nope", [], "m"⟩, sig⟩ = .error e :=
  claim_C6 ⟨0, "nope", [], "m"⟩ (Or.inl (by decide))

/-- C7: for every crypto function and every signed transaction, the
overall verification succeeds if and only if the signature check and
the balance check both succeed; a signature-stage error is surfaced
unchanged with the balance check skipped, and a balance error is
surfaced when the signature check passed. -/
theorem claim_C7 (edVerify : List ℕ → List ℕ → List ℕ → Bool) (st : SignedTransaction) :
    (verify_transaction edVerify st = .ok ()
      ↔ verify_signature edVerify st = .ok true ∧ verify_balance st.payload = .ok ())
    ∧ (∀ e, verify_signature edVerify st = .error e →
        verify_transaction edVerify st = .error e)
    ∧ (∀ e, verify_signature edVerify st = .ok true → verify_balance st.payload = .error e →
        verify_transaction edVerify st = .error e) := by
  refine ⟨?_, ?_, ?_⟩
  · cases hsig : verify_signature edVerify st with
    | error e =>
      simp only [verify_transaction, hsig]
      constructor
      · intro hcon
        cases hcon
      · rintro ⟨hcon, -⟩
        cases hcon
    | ok b =>
      have hb : b = true := verify_signature_ok_true edVerify st b hsig
      subst hb
      simp only [verify_transaction, hsig]
      exact ⟨fun hv => ⟨trivial, hv⟩, fun hv => hv.2⟩
  · intro e hsig
    simp only [verify_transaction, hsig]
  · intro e hsig hbal
    simp only [verify_transaction, hsig, hbal]

/-- C7 witness: the equivalence at a concrete verifier and signed
transaction. -/
theorem claim_C7_witness :
    verify_transaction (fun _ _ _ => true) ⟨⟨0, "w", [], "w"⟩, "00"⟩ = .ok ()
      ↔ verify_signature (fun _ _ _ => true) ⟨⟨0, "w", [], "w"⟩, "00"⟩ = .ok true
        ∧ verify_balance (⟨⟨0, "w", [], "w"⟩, "00"⟩ : SignedTransaction).payload = .ok () :=
  (claim_C7 (fun _ _ _ => true) ⟨⟨0, "w", [], "w"⟩, "00"⟩).1

/-- C2: for every key pair and every payload authored under the
identifier derived from the public key, signing the payload's hash and
storing the signature as hex yields a SignedTransaction that
verify_signature accepts, and for the balanced sample payload the
overall verification reports the transaction valid.  The signing and
verifying primitives are abstract parameters constrained exactly by
the guarantees of the Ed25519 library (see the modelling notes in the
file header): verification of a signed message succeeds, and produced
signatures are 64 bytes of valid range whose final byte has its top
three bits clear. -/
theorem claim_C2 (edSign : List ℕ → List ℕ → List ℕ)
    (edVerify : List ℕ → List ℕ → List ℕ → Bool) (sk pk : List ℕ) (tx : Transaction)
    (hpklen : pk.length = 32) (hpkbytes : ∀ b ∈ pk, b < 256)
    (hsiglen : ∀ m, (edSign sk m).length = 64)
    (hsigbytes : ∀ m b, b ∈ edSign sk m → b < 256)
    (hsigtop : ∀ m, (edSign sk m).getD 63 0 &&& 0xE0 = 0)
    (hcorrect : ∀ m, edVerify pk m (edSign sk m) = true)
    (hdid : tx.author_did = didFromPublicKey pk) :
    verify_signature edVerify ⟨tx, String.mk (hexEncode (edSign sk tx.get_hash1))⟩ = .ok true
    ∧ verify_transaction edVerify
        ⟨genesisTx (didFromPublicKey pk),
         String.mk (hexEncode (edSign sk (genesisTx (didFromPublicKey pk)).get_hash1))⟩
      = .ok () := by
  have hsig : ∀ tx' : Transaction, tx'.author_did = didFromPublicKey pk →
      verify_signature edVerify ⟨tx', String.mk (hexEncode (edSign sk tx'.get_hash1))⟩
        = .ok true := by
    intro tx' hdid'
    rw [verify_signature]
    rw [show (⟨tx', String.mk (hexEncode (edSign sk tx'.get_hash1))⟩
        : SignedTransaction).payload.author_did = tx'.author_did from rfl]
    rw [hdid']
    simp only [(did_key_spec pk hpklen hpkbytes).2]
    simp only [hexDecode_hexEncode _ (fun b hb => hsigbytes _ b hb)]
    rw [signatureFromBytes, if_pos ⟨hsiglen _, hsigtop _⟩]
    rw [show tx'.get_hash2 = tx'.get_hash1 from rfl]
    simp [hcorrect]
  constructor
  · exact hsig tx hdid
  · rw [verify_transaction, hsig (genesisTx (didFromPublicKey pk)) rfl]
    rfl

/-- C2 witness: the theorem instantiated with a concrete key pair and
a concrete scheme satisfying the Ed25519 guarantees; the signed sample
transaction passes the full verification. -/
theorem claim_C2_witness :
    verify_transaction (fun _ _ s => s == List.replicate 64 0)
      ⟨genesisTx (didFromPublicKey (List.replicate 32 7)),
       String.mk (hexEncode (List.replicate 64 0))⟩ = .ok () :=
  (claim_C2 (fun _ _ => List.replicate 64 0) (fun _ _ s => s == List.replicate 64 0)
    (List.replicate 32 9) (List.replicate 32 7)
    (genesisTx (didFromPublicKey (List.replicate 32 7)))
    (by decide) (by decide)
    (fun _ => by
      show (List.replicate 64 0).length = 64
      decide)
    (fun _ b hb => by
      rw [List.eq_of_mem_replicate hb]
      decide)
    (fun _ => by
      show (List.replicate 64 0).getD 63 0 &&& 0xE0 = 0
      decide)
    (fun _ => by
      show (List.replicate 64 0 == List.replicate 64 0) = true
      decide)
    rfl).2

example : charToDigit (alphaChar 5) = some 5 := rfl
example : base58Decode (base58Encode [0, 0, 237, 1, 12]) = some [0, 0, 237, 1, 12] := rfl
example : (didFromPublicKey (List.replicate 32 0)).data.take 12 = "did:key:z6Mk".data := rfl
example : did_to_public_key (didFromPublicKey (List.replicate 32 5)) = .ok (List.replicate 32 5) := rfl

end TrueLedger
